import Mathlib

/-!
Verification development for the VoxBox phoneme sonority syllabifier
(`tools/text/syllable_tokenizer.py`) and the mixed-script segmenter
(`tools/text/text2syllable.py`).

The Python code is shallowly embedded: lists stay lists, the phoneme map
(a Python dict built by successive assignments) becomes an association
list where the *last* binding wins, and fallible code (Python
`IndexError` / `AssertionError`) returns `Option`.
-/

namespace VoxBox

/-- The tokenizer state built by `SyllableTokenizer.__init__`:
`self.vowels` and `self.phoneme_map`. -/
structure SyllableTokenizer where
  vowels : List String
  phoneme_map : List (String × Nat)
  deriving Repr, DecidableEq

/-- Dict lookup: the *last* assignment to a key wins, a missing key is
`none` (Python `KeyError`). -/
def lookupLast (m : List (String × Nat)) (k : String) : Option Nat :=
  (m.reverse.find? (fun e => e.1 == k)).map (fun e => e.2)

/-- Python `c.upper()` for the ASCII phoneme symbols: uppercase every
character.  (Defined via `List.map` rather than `String.map` so that it
computes by structural recursion.) -/
def pyToUpper (s : String) : String :=
  String.mk (s.data.map Char.toUpper)

/-- The doubly-nested registration loop of `__init__`:
for each level `i` (`L` levels in total) and each symbol `c` of the level,
assign `phoneme_map[c] = L - i` and `phoneme_map[c.upper()] = L - i`. -/
def buildMapAux (L : Nat) (i : Nat) : List (List String) → List (String × Nat)
  | [] => []
  | level :: rest =>
      (level.flatMap fun c => [(c, L - i), (pyToUpper c, L - i)]) ++ buildMapAux L (i + 1) rest

/-- `phoneme_map` built from a sonority hierarchy. -/
def buildMap (h : List (List String)) : List (String × Nat) :=
  buildMapAux h.length 0 h

/-- Base English sonority hierarchy literal of `__init__` (before the
stress expansion of level 0). -/
def en_base_hierarchy : List (List String) :=
  [ ["AO", "AA", "IY", "UW", "EH", "IH", "UH", "AH", "AE", "EY", "AY", "OW", "AW", "OY", "ER"],
    ["Y", "W"],
    ["L", "EL", "R", "DX", "NX"],
    ["M", "EM", "N", "EN", "NG", "ENG"],
    ["P", "B", "T", "D", "K", "G", "CH", "JH", "F", "V", "TH", "DH", "S", "Z", "SH", "ZH", "HH"] ]

def en_stresses : List String := ["0", "1", "2"]

/-- `vowels = [base + stress for base in sonority_hierarchy[0] for stress in stresses]`. -/
def en_vowels : List String :=
  (en_base_hierarchy.headI).flatMap fun base => en_stresses.map fun stress => base ++ stress

/-- The default English hierarchy with level 0 replaced by the
stress-expanded vowels (`sonority_hierarchy[0] = vowels`). -/
def en_hierarchy : List (List String) := en_vowels :: en_base_hierarchy.tail

/-- `SyllableTokenizer.__init__`.  The `sonority_hierarchy` parameter
defaults to Python `False`; both `False` and an explicit empty list are
falsy, so we model the parameter as a plain list where `[]` stands for
"falsy".  Construction returns `none` where Python raises
(`sonority_hierarchy[0]` on an empty/falsy hierarchy). -/
def mkTokenizer (lang : String) (sonority_hierarchy : List (List String)) :
    Option SyllableTokenizer :=
  let hierarchy :=
    if sonority_hierarchy = [] ∧ lang = "en" then en_hierarchy else sonority_hierarchy
  match hierarchy with
  | [] => none
  | v :: rest => some ⟨v, buildMap (v :: rest)⟩

/-- The module-level default instance (`SSP = SyllableTokenizer()`). -/
def SSP : SyllableTokenizer := ⟨en_vowels, buildMap en_hierarchy⟩

/-- `assign_values`: look each phoneme up in the map, skipping symbols
that raise `KeyError`. -/
def assign_values (t : SyllableTokenizer) (token : List String) : List (String × Nat) :=
  token.filterMap fun c => (lookupLast t.phoneme_map c).map fun r => (c, r)

/-- `sum(token.count(x) for x in self.vowels)`. -/
def vowelCount (t : SyllableTokenizer) (token : List String) : Nat :=
  (t.vowels.map fun x => token.count x).sum

/-- Decidable vowel test (`phone in vowel_set`). -/
def isVowel (V : List String) (p : String) : Bool :=
  decide (p ∈ V)

/-- Number of vowel phonemes in a syllable. -/
def vcount (V : List String) (syl : List String) : Nat :=
  syl.countP (isVowel V)

/-- `has_vowel` test of the merge pass. -/
def hasVowel (V : List String) (syl : List String) : Bool :=
  syl.any (isVowel V)

/-- The trigram scan of `tokenize`.  The state is the open syllable
`cur` and the previous phoneme `p`; the remaining list starts at the
focal phoneme, so with `f :: nx :: rest` remaining the current trigram
is `(p, f, nx)`.  When one item remains there is no further trigram and
the last phoneme is appended and the syllable flushed
(`syllable.append(syllables_values[-1][0])`).  A singleton input
(nothing remaining after `p`) appends its only element a second time,
exactly as the Python does. -/
def scanLoop (cur : List String) (p : String × Nat) :
    List (String × Nat) → List (List String)
  | f :: nx :: rest =>
      if f.2 ≤ p.2 ∧ f.2 = nx.2 then
        (cur ++ [f.1]) :: scanLoop [] f (nx :: rest)
      else if f.2 < p.2 ∧ f.2 < nx.2 then
        cur :: scanLoop [f.1] f (nx :: rest)
      else
        scanLoop (cur ++ [f.1]) f (nx :: rest)
  | [lastv] => [cur ++ [lastv.1]]
  | [] => [cur ++ [p.1]]

/-- The whole scan: seed the first syllable with the first phoneme. -/
def sspScan : List (String × Nat) → List (List String)
  | [] => []
  | v0 :: rest => scanLoop [v0.1] v0 rest

/-- `valid_syllables[-1] += syllable`. -/
def appendToLast (x : List String) : List (List String) → List (List String)
  | [] => []
  | [last] => [last ++ x]
  | a :: b :: rest => a :: appendToLast x (b :: rest)

/-- Loop body of `validate_syllables`, with the two accumulators
`valid_syllables` and `front`. -/
def vsLoop (V : List String) (valid : List (List String)) (front : List String) :
    List (List String) → List (List String)
  | [] => valid
  | syl :: rest =>
      if hasVowel V syl then
        match valid with
        | [] => vsLoop V [front ++ syl] front rest
        | a :: vrest => vsLoop V ((a :: vrest) ++ [syl]) front rest
      else
        match valid with
        | [] => vsLoop V [] (front ++ syl) rest
        | a :: vrest => vsLoop V (appendToLast syl (a :: vrest)) front rest

/-- `validate_syllables`: merge vowel-less syllables into a neighbour. -/
def validate_syllables (V : List String) (syllable_list : List (List String)) :
    List (List String) :=
  vsLoop V [] [] syllable_list

/-- Index of the first vowel of a syllable (`first_vowel_i`), `none`
when the syllable has no vowel (Python keeps `-1` and the assertion
fails). -/
def firstVowelIdx (V : List String) : List String → Option Nat
  | [] => none
  | c :: rest =>
      if isVowel V c then some 0 else (firstVowelIdx V rest).map (fun i => i + 1)

/-- One step of `validate_syllables2`: `assert first_vowel_i > -1`, then
split after the first vowel when the syllable holds more than one vowel
(`multi_vowel`). -/
def splitSyl (V : List String) (syl : List String) : Option (List (List String)) :=
  match firstVowelIdx V syl with
  | none => none
  | some i =>
      if 2 ≤ vcount V syl then some [syl.take (i + 1), syl.drop (i + 1)]
      else some [syl]

/-- `validate_syllables2`: split every multi-vowel syllable; `none` as
soon as the assertion fails. -/
def validate_syllables2 (V : List String) : List (List String) → Option (List (List String))
  | [] => some []
  | syl :: rest =>
      match splitSyl V syl, validate_syllables2 V rest with
      | some a, some b => some (a ++ b)
      | _, _ => none

/-- `SyllableTokenizer.tokenize`.  `none` marks the two Python failure
modes: `syllables_values[0]` on an empty value list (`IndexError`) and
the assertion of `validate_syllables2`. -/
def tokenize (t : SyllableTokenizer) (token : List String) :
    Option (List (List String)) :=
  if vowelCount t token ≤ 1 then some [token]
  else
    match assign_values t token with
    | [] => none
    | v0 :: rest =>
        validate_syllables2 t.vowels
          (validate_syllables t.vowels (scanLoop [v0.1] v0 rest))

/-- `' '.join(phone)`. -/
def joinSpace (phone : List String) : String :=
  String.intercalate " " phone

/-- `SyllableTokenizer.syllable`: slice the phone stream by the per-word
phone counts; words of at most two phones stay whole, longer words are
syllabified by `tokenize`.  Python's running `phones[start:end]` slices
are rendered as `take`/`drop` on the remaining stream (identical
semantics, including the clamping of out-of-range slices). -/
def syllable (t : SyllableTokenizer) (phones : List String) :
    List Nat → Option (List String × List Nat)
  | [] => some ([], [])
  | n :: restNums =>
      let phone := phones.take n
      if n ≤ 2 then
        (syllable t (phones.drop n) restNums).map fun sc =>
          (joinSpace phone :: sc.1, n :: sc.2)
      else
        match tokenize t phone with
        | none => none
        | some sylls =>
            (syllable t (phones.drop n) restNums).map fun sc =>
              (sylls.map joinSpace ++ sc.1, sylls.map List.length ++ sc.2)

/-! ## Mixed-script segmentation (`tools/text/text2syllable.py`) -/

/-- Modelled from the spec: the character class `UNICODE_ALL_CN` comes
from `tools/text/unicode.py`, which is not part of the sources at hand.
The spec describes the class as "the CJK Unicode ranges" and elsewhere
names the range `一-鿿`, so the class is modelled as that CJK
Unified Ideographs block. -/
def isCN (c : Char) : Bool :=
  0x4e00 ≤ c.toNat && c.toNat ≤ 0x9fff

/-- Maximal runs of characters with the same script class, i.e. the
matches of the regex `[CN]+|[^CN]+` (the two classes are complementary,
so `findall` yields exactly the maximal same-class runs, covering the
whole string).  Each run is kept non-empty by storing its head apart. -/
def groupRuns (p : Char → Bool) : List Char → List (Char × List Char)
  | [] => []
  | c :: rest =>
      match groupRuns p rest with
      | [] => [(c, [])]
      | (d, ds) :: rs =>
          if p c == p d then (c, d :: ds) :: rs else (c, []) :: (d, ds) :: rs

/-- Python `str.strip()`: drop leading and trailing whitespace. -/
def stripChars (l : List Char) : List Char :=
  ((l.dropWhile Char.isWhitespace).reverse.dropWhile Char.isWhitespace).reverse

/-- `split_zh_en`: cut the text into maximal CJK / non-CJK runs, strip
each, and keep only the non-empty results
(`[seg.strip() for seg in segments if seg.strip()]`). -/
def split_zh_en (text : String) : List String :=
  (((groupRuns isCN text.toList).map fun r => stripChars (r.1 :: r.2)).filter
      fun s => !s.isEmpty).map fun s => String.mk s

/-! ## Lookup and map facts -/

theorem lookupLast_mem {m : List (String × Nat)} {k : String} {r : Nat}
    (h : lookupLast m k = some r) : (k, r) ∈ m := by
  unfold lookupLast at h
  cases hf : m.reverse.find? (fun e => e.1 == k) with
  | none => simp [hf] at h
  | some e =>
      simp only [hf, Option.map_some'] at h
      have he : e ∈ m.reverse := List.mem_of_find?_eq_some hf
      have hk : e.1 = k := by
        have := List.find?_some hf
        simpa using this
      have : e = (k, r) := by
        cases e; simp_all
      rw [this] at he
      exact List.mem_reverse.mp he

theorem lookupLast_isSome_of_mem {m : List (String × Nat)} {k : String} {r : Nat}
    (h : (k, r) ∈ m) : (lookupLast m k).isSome = true := by
  unfold lookupLast
  have : ∃ e ∈ m.reverse, (fun e : String × Nat => e.1 == k) e = true := by
    exact ⟨(k, r), List.mem_reverse.mpr h, by simp⟩
  rcases List.find?_isSome.mpr this with h2
  cases hf : m.reverse.find? (fun e => e.1 == k) with
  | none => rw [hf] at h2; simp at h2
  | some e => simp

set_option maxRecDepth 20000 in
/-- Every rank stored in the default map lies between 1 and 5, and the
rank is 5 exactly for the vowel symbols. -/
theorem SSP_map_facts :
    ∀ e ∈ SSP.phoneme_map, 1 ≤ e.2 ∧ e.2 ≤ 5 ∧ (e.2 = 5 ↔ isVowel en_vowels e.1 = true) := by
  decide

set_option maxRecDepth 20000 in
/-- Every default vowel is mapped to rank 5. -/
theorem en_vowels_rank : ∀ v ∈ en_vowels, lookupLast SSP.phoneme_map v = some 5 := by
  decide

set_option maxRecDepth 20000 in
theorem en_vowels_nodup : en_vowels.Nodup := by decide

theorem rank_le_5 {c : String} {r : Nat}
    (h : lookupLast SSP.phoneme_map c = some r) : r ≤ 5 :=
  (SSP_map_facts _ (lookupLast_mem h)).2.1

theorem rank_eq_5_iff {c : String} {r : Nat}
    (h : lookupLast SSP.phoneme_map c = some r) :
    r = 5 ↔ isVowel en_vowels c = true :=
  (SSP_map_facts _ (lookupLast_mem h)).2.2

theorem isVowel_rank {c : String} (h : isVowel en_vowels c = true) :
    lookupLast SSP.phoneme_map c = some 5 := by
  have : c ∈ en_vowels := by simpa [isVowel] using h
  exact en_vowels_rank c this

/-! ## Counting helpers -/

theorem vcount_append (V : List String) (a b : List String) :
    vcount V (a ++ b) = vcount V a + vcount V b := by
  simp [vcount, List.countP_append]

theorem vcount_snoc (V : List String) (cur : List String) (x : String) :
    vcount V (cur ++ [x]) = vcount V cur + (if isVowel V x then 1 else 0) := by
  simp [vcount, List.countP_append, List.countP_cons]

theorem vcount_singleton_le (V : List String) (x : String) : vcount V [x] ≤ 1 := by
  simp only [vcount, List.countP_cons, List.countP_nil]
  split <;> omega

theorem hasVowel_iff (V : List String) (s : List String) :
    hasVowel V s = true ↔ 1 ≤ vcount V s := by
  induction s with
  | nil => simp [hasVowel, vcount]
  | cons a t ih =>
      cases h : isVowel V a
      · simp only [hasVowel, vcount, List.any_cons, List.countP_cons, h] at ih ⊢
        simp [ih]
      · simp [hasVowel, vcount, List.countP_cons, h]

/-! ## Scan lemmas -/

theorem ranked_facts {e : String × Nat} (h : lookupLast SSP.phoneme_map e.1 = some e.2) :
    e.2 ≤ 5 ∧ (isVowel en_vowels e.1 = true ↔ e.2 = 5) :=
  ⟨rank_le_5 h, (rank_eq_5_iff h).symm⟩

/-- Coverage of the trigram scan: the produced syllables concatenate to
the phonemes handed in (the seed syllable `cur` first). -/
theorem scan_concat :
    ∀ (rest : List (String × Nat)) (cur : List String) (p : String × Nat),
      rest ≠ [] →
      (scanLoop cur p rest).flatten = cur ++ rest.map Prod.fst := by
  intro rest
  induction rest with
  | nil => intro cur p h; exact absurd rfl h
  | cons f rest' ih =>
      intro cur p _
      cases rest' with
      | nil => simp [scanLoop]
      | cons nx rest'' =>
          simp only [scanLoop]
          split_ifs with hB1 hB2
          · rw [List.flatten_cons, ih [] f (by simp)]
            simp
          · rw [List.flatten_cons, ih [f.1] f (by simp)]
            simp
          · rw [ih (cur ++ [f.1]) f (by simp)]
            simp

/-- The vowel-count invariant of the scan: under the default map (all
ranks at most 5, rank 5 exactly for vowels) every flushed syllable holds
at most two vowels. -/
theorem scan_vcount :
    ∀ (rest : List (String × Nat)) (cur : List String) (p f : String × Nat),
      (∀ e ∈ p :: f :: rest, lookupLast SSP.phoneme_map e.1 = some e.2) →
      vcount en_vowels cur ≤ 2 →
      (vcount en_vowels cur = 1 → p.2 = 5 ∨ f.2 < p.2) →
      (vcount en_vowels cur = 2 → f.2 < p.2) →
      ∀ s ∈ scanLoop cur p (f :: rest), vcount en_vowels s ≤ 2 := by
  intro rest
  induction rest with
  | nil =>
      intro cur p f hR hle h1 h2 s hs
      simp only [scanLoop, List.mem_singleton] at hs
      subst hs
      rw [vcount_snoc]
      have hp := ranked_facts (hR p (List.mem_cons_self _ _))
      have hf := ranked_facts (hR f (List.mem_cons_of_mem _ (List.mem_cons_self _ _)))
      rcases Nat.lt_or_ge (vcount en_vowels cur) 2 with hlt | hge
      · split <;> omega
      · have hv2 : vcount en_vowels cur = 2 := le_antisymm hle hge
        have hfp := h2 hv2
        have hvf : isVowel en_vowels f.1 = false := by
          cases hvf : isVowel en_vowels f.1
          · rfl
          · exfalso; have := hf.2.mp hvf; omega
        simp [hvf, hv2]
  | cons nx rest' ih =>
      intro cur p f hR hle h1 h2 s hs
      have hp := ranked_facts (hR p (List.mem_cons_self _ _))
      have hf := ranked_facts (hR f (List.mem_cons_of_mem _ (List.mem_cons_self _ _)))
      have hnx := ranked_facts (hR nx
        (List.mem_cons_of_mem _ (List.mem_cons_of_mem _ (List.mem_cons_self _ _))))
      have hRtail : ∀ e ∈ f :: nx :: rest', lookupLast SSP.phoneme_map e.1 = some e.2 :=
        fun e he => hR e (List.mem_cons_of_mem _ he)
      have h00 : vcount en_vowels ([] : List String) = 0 := rfl
      simp only [scanLoop] at hs
      split_ifs at hs with hB1 hB2
      · rcases List.mem_cons.mp hs with hs | hs
        · subst hs
          rw [vcount_snoc]
          rcases Nat.lt_or_ge (vcount en_vowels cur) 2 with hlt | hge
          · split <;> omega
          · have hv2 : vcount en_vowels cur = 2 := le_antisymm hle hge
            have hfp := h2 hv2
            have hvf : isVowel en_vowels f.1 = false := by
              cases hvf : isVowel en_vowels f.1
              · rfl
              · exfalso; have := hf.2.mp hvf; omega
            simp [hvf, hv2]
        · exact ih [] f nx hRtail (by omega) (by omega) (by omega) s hs
      · rcases List.mem_cons.mp hs with hs | hs
        · subst hs; exact hle
        · have h01 := vcount_singleton_le en_vowels f.1
          refine ih [f.1] f nx hRtail (by omega) ?_ (by omega) s hs
          intro hv1
          left
          have hvf : isVowel en_vowels f.1 = true := by
            cases hvf : isVowel en_vowels f.1
            · exfalso
              simp only [vcount, List.countP_cons, List.countP_nil, hvf] at hv1
              simp at hv1
            · rfl
          exact hf.2.mp hvf
      · refine ih (cur ++ [f.1]) f nx hRtail ?_ ?_ ?_ s hs
        · rw [vcount_snoc]
          rcases Nat.lt_or_ge (vcount en_vowels cur) 2 with hlt | hge
          · split <;> omega
          · have hv2 : vcount en_vowels cur = 2 := le_antisymm hle hge
            have hfp := h2 hv2
            have hvf : isVowel en_vowels f.1 = false := by
              cases hvf : isVowel en_vowels f.1
              · rfl
              · exfalso; have := hf.2.mp hvf; omega
            simp [hvf, hv2]
        · intro hv1
          rw [vcount_snoc] at hv1
          cases hvf : isVowel en_vowels f.1
          · right
            simp only [hvf] at hv1
            have hvc1 : vcount en_vowels cur = 1 := by simpa using hv1
            have hne : f.2 ≠ 5 := by
              intro h5; exact absurd (hf.2.mpr h5) (by simp [hvf])
            have hflt : f.2 < p.2 := by
              rcases h1 hvc1 with h | h
              · omega
              · exact h
            push_neg at hB1 hB2
            have h3 : f.2 ≠ nx.2 := hB1 (le_of_lt hflt)
            have h4 : nx.2 ≤ f.2 := hB2 hflt
            omega
          · exact Or.inl (hf.2.mp hvf)
        · intro hv2
          rw [vcount_snoc] at hv2
          cases hvf : isVowel en_vowels f.1
          · simp only [hvf] at hv2
            have hvc2 : vcount en_vowels cur = 2 := by simpa using hv2
            have hfp := h2 hvc2
            push_neg at hB1 hB2
            have h3 := hB1 (le_of_lt hfp)
            have h4 := hB2 hfp
            omega
          · simp only [hvf] at hv2
            have hvc1 : vcount en_vowels cur = 1 := by
              simp at hv2
              omega
            have hf5 : f.2 = 5 := hf.2.mp hvf
            have hp5 : p.2 = 5 := by
              rcases h1 hvc1 with h | h
              · exact h
              · omega
            push_neg at hB1 hB2
            have h3 : f.2 ≠ nx.2 := hB1 (by omega)
            have h4 := hnx.1
            omega

/-! ## Merge-pass lemmas (`validate_syllables`) -/

theorem appendToLast_ne_nil (x : List String) (a : List String) (vrest : List (List String)) :
    appendToLast x (a :: vrest) ≠ [] := by
  cases vrest <;> simp [appendToLast]

theorem flatten_appendToLast :
    ∀ (valid : List (List String)) (x : List String), valid ≠ [] →
      (appendToLast x valid).flatten = valid.flatten ++ x := by
  intro valid
  induction valid with
  | nil => intro x h; exact absurd rfl h
  | cons a vrest ih =>
      intro x _
      cases vrest with
      | nil => simp [appendToLast]
      | cons b r =>
          simp only [appendToLast, List.flatten_cons, ih x (by simp)]
          simp

theorem mem_appendToLast :
    ∀ {valid : List (List String)} {x s : List String},
      s ∈ appendToLast x valid → s ∈ valid ∨ ∃ u ∈ valid, s = u ++ x := by
  intro valid
  induction valid with
  | nil => intro x s h; simp [appendToLast] at h
  | cons a vrest ih =>
      intro x s h
      cases vrest with
      | nil =>
          simp only [appendToLast, List.mem_singleton] at h
          exact Or.inr ⟨a, by simp, h⟩
      | cons b r =>
          simp only [appendToLast, List.mem_cons] at h
          rcases h with h | h
          · exact Or.inl (by simp [h])
          · rcases ih h with h | ⟨u, hu, rfl⟩
            · exact Or.inl (List.mem_cons_of_mem _ h)
            · exact Or.inr ⟨u, List.mem_cons_of_mem _ hu, rfl⟩

/-- With a non-empty accumulator, the merge loop only ever appends to
the accumulator, so the concatenation grows by exactly the remaining
syllables (`front` is never consulted again). -/
theorem vsLoop_flatten_ne :
    ∀ (l : List (List String)) (V : List String) (valid : List (List String))
      (front : List String), valid ≠ [] →
      (vsLoop V valid front l).flatten = valid.flatten ++ l.flatten := by
  intro l
  induction l with
  | nil => intro V valid front _; simp [vsLoop]
  | cons syl rest ih =>
      intro V valid front hne
      obtain ⟨a, vrest, rfl⟩ : ∃ a vrest, valid = a :: vrest := by
        cases valid with
        | nil => exact absurd rfl hne
        | cons a vrest => exact ⟨a, vrest, rfl⟩
      simp only [vsLoop]
      split
      · rw [ih V ((a :: vrest) ++ [syl]) front (by simp)]
        simp
      · rw [ih V (appendToLast syl (a :: vrest)) front (appendToLast_ne_nil _ _ _),
            flatten_appendToLast _ _ (by simp)]
        simp

/-- Starting from the empty accumulator, as soon as some remaining
syllable holds a vowel the pending `front` is flushed into the output,
so the concatenation is preserved. -/
theorem vsLoop_flatten_nil :
    ∀ (l : List (List String)) (V : List String) (front : List String),
      (∃ s ∈ l, hasVowel V s = true) →
      (vsLoop V [] front l).flatten = front ++ l.flatten := by
  intro l
  induction l with
  | nil => intro V front h; simp at h
  | cons syl rest ih =>
      intro V front hex
      simp only [vsLoop]
      split
      · rw [vsLoop_flatten_ne rest V [front ++ syl] front (by simp)]
        simp
      · rename_i hnv
        have hex' : ∃ s ∈ rest, hasVowel V s = true := by
          rcases hex with ⟨s, hs, hvs⟩
          rcases List.mem_cons.mp hs with rfl | hs
          · exact absurd hvs (by simp [hnv])
          · exact ⟨s, hs, hvs⟩
        rw [ih V (front ++ syl) hex']
        simp

/-- Every syllable the merge pass outputs contains a vowel (with the
accumulator invariant made explicit). -/
theorem vsLoop_vc_lower :
    ∀ (l : List (List String)) (V : List String) (valid : List (List String))
      (front : List String),
      (∀ s ∈ valid, 1 ≤ vcount V s) →
      ∀ s ∈ vsLoop V valid front l, 1 ≤ vcount V s := by
  intro l
  induction l with
  | nil => intro V valid front hv s hs; exact hv s hs
  | cons syl rest ih =>
      intro V valid front hv s hs
      simp only [vsLoop] at hs
      split at hs
      · rename_i hhv
        cases valid with
        | nil =>
            refine ih V [front ++ syl] front ?_ s hs
            intro u hu
            rcases List.mem_singleton.mp hu with rfl
            have := (hasVowel_iff V syl).mp hhv
            rw [vcount_append]
            omega
        | cons a vrest =>
            refine ih V ((a :: vrest) ++ [syl]) front ?_ s hs
            intro u hu
            rcases List.mem_append.mp hu with hu | hu
            · exact hv u hu
            · rcases List.mem_singleton.mp hu with rfl
              exact (hasVowel_iff V u).mp hhv
      · cases valid with
        | nil => exact ih V [] (front ++ syl) (by simp) s hs
        | cons a vrest =>
            refine ih V (appendToLast syl (a :: vrest)) front ?_ s hs
            intro u hu
            rcases mem_appendToLast hu with hu | ⟨w, hw, rfl⟩
            · exact hv u hu
            · have := hv w hw
              rw [vcount_append]
              omega

/-- Bounded version: if the incoming syllables hold at most two vowels
each, every merged syllable holds one or two vowels. -/
theorem vsLoop_vc_mem :
    ∀ (l : List (List String)) (V : List String) (valid : List (List String))
      (front : List String),
      (∀ s ∈ valid, 1 ≤ vcount V s ∧ vcount V s ≤ 2) →
      (∀ s ∈ l, vcount V s ≤ 2) →
      vcount V front = 0 →
      ∀ s ∈ vsLoop V valid front l, 1 ≤ vcount V s ∧ vcount V s ≤ 2 := by
  intro l
  induction l with
  | nil => intro V valid front hv _ _ s hs; exact hv s hs
  | cons syl rest ih =>
      intro V valid front hv hl hf s hs
      have hsyl2 : vcount V syl ≤ 2 := hl syl (by simp)
      have hl' : ∀ s ∈ rest, vcount V s ≤ 2 := fun u hu => hl u (List.mem_cons_of_mem _ hu)
      simp only [vsLoop] at hs
      split at hs
      · rename_i hhv
        have hsyl1 := (hasVowel_iff V syl).mp hhv
        cases valid with
        | nil =>
            refine ih V [front ++ syl] front ?_ hl' hf s hs
            intro u hu
            rcases List.mem_singleton.mp hu with rfl
            rw [vcount_append, hf]
            omega
        | cons a vrest =>
            refine ih V ((a :: vrest) ++ [syl]) front ?_ hl' hf s hs
            intro u hu
            rcases List.mem_append.mp hu with hu | hu
            · exact hv u hu
            · rcases List.mem_singleton.mp hu with rfl
              omega
      · rename_i hnv
        have hsyl0 : vcount V syl = 0 := by
          have h := hasVowel_iff V syl
          cases hb : hasVowel V syl
          · rw [hb] at h
            simp at h
            omega
          · exact absurd hb hnv
        cases valid with
        | nil =>
            refine ih V [] (front ++ syl) hv hl' ?_ s hs
            rw [vcount_append, hf, hsyl0]
        | cons a vrest =>
            refine ih V (appendToLast syl (a :: vrest)) front ?_ hl' hf s hs
            intro u hu
            rcases mem_appendToLast hu with hu | ⟨w, hw, rfl⟩
            · exact hv u hu
            · have := hv w hw
              rw [vcount_append, hsyl0]
              omega

/-! ## Split-pass lemmas (`validate_syllables2`) -/

theorem firstVowelIdx_of_pos (V : List String) :
    ∀ (syl : List String), 1 ≤ vcount V syl → ∃ i, firstVowelIdx V syl = some i := by
  intro syl
  induction syl with
  | nil => intro h; simp [vcount] at h
  | cons c rest ih =>
      intro h
      cases hc : isVowel V c
      · have : 1 ≤ vcount V rest := by
          simp only [vcount, List.countP_cons, hc] at h ⊢
          simpa using h
        rcases ih this with ⟨j, hj⟩
        exact ⟨j + 1, by simp [firstVowelIdx, hc, hj]⟩
      · exact ⟨0, by simp [firstVowelIdx, hc]⟩

theorem firstVowelIdx_take (V : List String) :
    ∀ (syl : List String) (i : Nat), firstVowelIdx V syl = some i →
      vcount V (syl.take (i + 1)) = 1 := by
  intro syl
  induction syl with
  | nil => intro i h; simp [firstVowelIdx] at h
  | cons c rest ih =>
      intro i h
      cases hc : isVowel V c
      · simp only [firstVowelIdx, hc, Bool.false_eq_true, if_false] at h
        cases hj : firstVowelIdx V rest with
        | none => rw [hj] at h; simp at h
        | some j =>
            rw [hj] at h
            simp only [Option.map_some'] at h
            have hi : i = j + 1 := by
              have := h
              simp at this
              omega
            subst hi
            have := ih j hj
            simp [List.take_cons, vcount, List.countP_cons, hc]
            simpa [vcount] using this
      · simp only [firstVowelIdx, hc, if_true] at h
        have hi : i = 0 := by simpa using h.symm
        subst hi
        simp [vcount, List.countP_cons, hc]

/-- The split pass succeeds on syllables that all contain a vowel, and
preserves the concatenation; when every incoming syllable holds one or
two vowels, every outgoing syllable holds exactly one. -/
theorem validate_syllables2_spec (V : List String) :
    ∀ (l : List (List String)),
      (∀ s ∈ l, 1 ≤ vcount V s) →
      ∃ out, validate_syllables2 V l = some out ∧ out.flatten = l.flatten ∧
        ((∀ s ∈ l, vcount V s ≤ 2) → ∀ s ∈ out, vcount V s = 1) := by
  intro l
  induction l with
  | nil => exact fun _ => ⟨[], rfl, rfl, fun _ s hs => absurd hs (by simp)⟩
  | cons syl rest ih =>
      intro hpos
      have hsyl1 : 1 ≤ vcount V syl := hpos syl (by simp)
      rcases ih (fun u hu => hpos u (List.mem_cons_of_mem _ hu)) with ⟨out', hout', hfl', hone'⟩
      rcases firstVowelIdx_of_pos V syl hsyl1 with ⟨i, hi⟩
      by_cases h2 : 2 ≤ vcount V syl
      · refine ⟨[syl.take (i + 1), syl.drop (i + 1)] ++ out', ?_, ?_, ?_⟩
        · simp only [validate_syllables2, splitSyl, hi, if_pos h2, hout']
        · simp only [List.cons_append, List.nil_append, List.flatten_cons, hfl']
          rw [← List.append_assoc, List.take_append_drop]
        · intro hle s hs
          have htk := firstVowelIdx_take V syl i hi
          have hsylle : vcount V syl ≤ 2 := hle syl (by simp)
          have hdp : vcount V (syl.drop (i + 1)) = 1 := by
            have : vcount V (syl.take (i + 1)) + vcount V (syl.drop (i + 1)) = vcount V syl := by
              rw [← vcount_append, List.take_append_drop]
            omega
          simp only [List.cons_append, List.mem_cons] at hs
          rcases hs with rfl | hs
          · exact htk
          · rcases hs with rfl | hs
            · exact hdp
            · exact hone' (fun u hu => hle u (List.mem_cons_of_mem _ hu)) s hs
      · refine ⟨syl :: out', ?_, ?_, ?_⟩
        · simp [validate_syllables2, splitSyl, hi, h2, hout']
        · simp [hfl']
        · intro hle s hs
          rcases List.mem_cons.mp hs with rfl | hs
          · omega
          · exact hone' (fun u hu => hle u (List.mem_cons_of_mem _ hu)) s hs

/-! ## Relating `vowelCount` to a position count -/

theorem isVowel_cons (v : String) (V : List String) (x : String) :
    isVowel (v :: V) x = ((x == v) || isVowel V x) := by
  by_cases h1 : x = v <;> by_cases h2 : x ∈ V <;> simp [isVowel, h1, h2]

theorem countP_or_disjoint :
    ∀ (l : List String) (p q : String → Bool),
      (∀ x ∈ l, ¬(p x = true ∧ q x = true)) →
      l.countP (fun x => p x || q x) = l.countP p + l.countP q := by
  intro l p q
  induction l with
  | nil => intro _; simp
  | cons a t ih =>
      intro h
      have ha := h a (by simp)
      have ht := ih (fun x hx => h x (List.mem_cons_of_mem _ hx))
      cases hp : p a
      · cases hq : q a
        · simp only [List.countP_cons, hp, hq, ht]
          simp
        · simp only [List.countP_cons, hp, hq, ht]
          simp
          omega
      · cases hq : q a
        · simp only [List.countP_cons, hp, hq, ht]
          simp
          omega
        · exact absurd ⟨hp, hq⟩ ha

/-- `sum(token.count(x) for x in V)` counts the vowel positions of
`token` whenever `V` has no duplicates. -/
theorem sum_count_eq (token : List String) :
    ∀ (V : List String), V.Nodup →
      (V.map fun x => token.count x).sum = token.countP (isVowel V) := by
  intro V
  induction V with
  | nil =>
      intro _
      have h0 : token.countP (isVowel []) = 0 := by
        rw [List.countP_eq_zero]
        intro a _
        simp [isVowel]
      simp [h0]
  | cons v V' ih =>
      intro hnd
      rcases List.nodup_cons.mp hnd with ⟨hv, hnd'⟩
      have hfun : isVowel (v :: V') = fun x => ((x == v) || isVowel V' x) := by
        funext x
        exact isVowel_cons v V' x
      have hdisj : ∀ x ∈ token, ¬((x == v) = true ∧ isVowel V' x = true) := by
        intro x _ hx
        have h1 : x = v := by simpa using hx.1
        subst h1
        exact hv (by simpa [isVowel] using hx.2)
      have hcnt : token.count v = token.countP (fun x => x == v) := rfl
      calc (List.map (fun x => token.count x) (v :: V')).sum
          = token.count v + (V'.map fun x => token.count x).sum := by simp
        _ = token.countP (fun x => x == v) + token.countP (isVowel V') := by
              rw [hcnt, ih hnd']
        _ = token.countP (fun x => (x == v) || isVowel V' x) :=
              (countP_or_disjoint token _ _ hdisj).symm
        _ = token.countP (isVowel (v :: V')) := by rw [hfun]

theorem vowelCount_SSP (token : List String) :
    vowelCount SSP token = token.countP (isVowel en_vowels) :=
  sum_count_eq token en_vowels en_vowels_nodup

/-! ## `assign_values` lemmas -/

theorem mem_assign_values {t : SyllableTokenizer} {token : List String} {e : String × Nat}
    (h : e ∈ assign_values t token) :
    lookupLast t.phoneme_map e.1 = some e.2 ∧ e.1 ∈ token := by
  simp only [assign_values, List.mem_filterMap] at h
  rcases h with ⟨c, hc, hmap⟩
  cases hl : lookupLast t.phoneme_map c with
  | none => rw [hl] at hmap; simp at hmap
  | some r =>
      rw [hl] at hmap
      simp only [Option.map_some', Option.some.injEq] at hmap
      subst hmap
      exact ⟨hl, hc⟩

theorem assign_values_mem_of {t : SyllableTokenizer} {token : List String}
    {c : String} {r : Nat} (hc : c ∈ token)
    (hr : lookupLast t.phoneme_map c = some r) : (c, r) ∈ assign_values t token := by
  simp only [assign_values, List.mem_filterMap]
  exact ⟨c, hc, by rw [hr]; rfl⟩

theorem assign_values_length (t : SyllableTokenizer) :
    ∀ token : List String, (assign_values t token).length =
      token.countP (fun c => (lookupLast t.phoneme_map c).isSome) := by
  intro token
  induction token with
  | nil => rfl
  | cons c rest ih =>
      simp only [assign_values, List.filterMap_cons] at ih ⊢
      cases hl : lookupLast t.phoneme_map c with
      | none => simp [List.countP_cons, hl, ih]
      | some r => simp [List.countP_cons, hl, ih]

theorem assign_values_map_fst (t : SyllableTokenizer) :
    ∀ token : List String,
      (∀ c ∈ token, (lookupLast t.phoneme_map c).isSome = true) →
      (assign_values t token).map Prod.fst = token := by
  intro token
  induction token with
  | nil => intro _; rfl
  | cons c rest ih =>
      intro h
      have hc := h c (by simp)
      cases hl : lookupLast t.phoneme_map c with
      | none => rw [hl] at hc; simp at hc
      | some r =>
          have ht := ih (fun u hu => h u (List.mem_cons_of_mem _ hu))
          simp only [assign_values, List.filterMap_cons, hl] at ht ⊢
          simp [ht]

/-! ## The assembled tokenizer pipeline -/

/-- Master lemma for inputs with at least two vowel occurrences: the
pipeline succeeds, covers exactly the known phonemes, and each produced
syllable contains exactly one vowel. -/
theorem tokenize_core (token : List String) (h2 : 2 ≤ vowelCount SSP token) :
    ∃ sylls, tokenize SSP token = some sylls ∧
      sylls.flatten = (assign_values SSP token).map Prod.fst ∧
      ∀ s ∈ sylls, vcount en_vowels s = 1 := by
  have hcp : 2 ≤ token.countP (isVowel en_vowels) := by
    rw [← vowelCount_SSP]; exact h2
  have hlen : 2 ≤ (assign_values SSP token).length := by
    rw [assign_values_length]
    refine le_trans hcp (List.countP_mono_left ?_)
    intro c _ hcv
    rw [isVowel_rank hcv]
    rfl
  obtain ⟨v0, f, rest2, hveq⟩ :
      ∃ v0 f rest2, assign_values SSP token = v0 :: f :: rest2 := by
    cases hv : assign_values SSP token with
    | nil => rw [hv] at hlen; simp at hlen
    | cons v0 tail =>
        cases tail with
        | nil => rw [hv] at hlen; simp at hlen
        | cons f rest2 => exact ⟨v0, f, rest2, rfl⟩
  have hR : ∀ e ∈ v0 :: f :: rest2, lookupLast SSP.phoneme_map e.1 = some e.2 := by
    intro e he
    rw [← hveq] at he
    exact (mem_assign_values he).1
  have hs01 := vcount_singleton_le en_vowels v0.1
  have hscan2 : ∀ s ∈ scanLoop [v0.1] v0 (f :: rest2), vcount en_vowels s ≤ 2 := by
    refine scan_vcount rest2 [v0.1] v0 f hR (by omega) ?_ (by omega)
    intro h1
    left
    have hvb : isVowel en_vowels v0.1 = true := by
      cases hb : isVowel en_vowels v0.1
      · exfalso
        simp [vcount, List.countP_cons, hb] at h1
      · rfl
    exact (ranked_facts (hR v0 (List.mem_cons_self _ _))).2.mp hvb
  have hconcat : (scanLoop [v0.1] v0 (f :: rest2)).flatten
      = (v0 :: f :: rest2).map Prod.fst := by
    have h := scan_concat (f :: rest2) [v0.1] v0 (by simp)
    simpa using h
  have hex : ∃ s ∈ scanLoop [v0.1] v0 (f :: rest2), hasVowel en_vowels s = true := by
    have hpos : 0 < token.countP (isVowel en_vowels) := by omega
    rcases List.countP_pos_iff.mp hpos with ⟨c, hc, hcv⟩
    have hmem : (c, 5) ∈ assign_values SSP token := assign_values_mem_of hc (isVowel_rank hcv)
    rw [hveq] at hmem
    have hcin : c ∈ (scanLoop [v0.1] v0 (f :: rest2)).flatten := by
      rw [hconcat]
      exact List.mem_map.mpr ⟨(c, 5), hmem, rfl⟩
    rcases List.mem_flatten.mp hcin with ⟨s, hs, hcs⟩
    refine ⟨s, hs, ?_⟩
    unfold hasVowel
    rw [List.any_eq_true]
    exact ⟨c, hcs, hcv⟩
  have hval1 : ∀ s ∈ validate_syllables en_vowels (scanLoop [v0.1] v0 (f :: rest2)),
      1 ≤ vcount en_vowels s ∧ vcount en_vowels s ≤ 2 :=
    vsLoop_vc_mem _ en_vowels [] [] (by simp) hscan2 rfl
  have hvalfl : (validate_syllables en_vowels (scanLoop [v0.1] v0 (f :: rest2))).flatten
      = (v0 :: f :: rest2).map Prod.fst := by
    unfold validate_syllables
    rw [vsLoop_flatten_nil _ en_vowels [] hex]
    simpa using hconcat
  rcases validate_syllables2_spec en_vowels _ (fun s hs => (hval1 s hs).1) with
    ⟨out, hout, hofl, hone⟩
  refine ⟨out, ?_, ?_, ?_⟩
  · unfold tokenize
    rw [if_neg (by omega), hveq]
    exact hout
  · rw [hofl, hvalfl, hveq]
  · exact hone fun u hu => (hval1 u hu).2

/-- Shared corollary: when every phoneme of the input is present in the
default map, `tokenize` succeeds and its syllables concatenate to the
input. -/
theorem tokenize_flatten_known (token : List String)
    (h : ∀ c ∈ token, (lookupLast SSP.phoneme_map c).isSome = true) :
    ∃ sylls, tokenize SSP token = some sylls ∧ sylls.flatten = token := by
  by_cases h2 : vowelCount SSP token ≤ 1
  · exact ⟨[token], by simp [tokenize, h2], by simp⟩
  · rcases tokenize_core token (by omega) with ⟨sylls, ht, hfl, _⟩
    exact ⟨sylls, ht, by rw [hfl, assign_values_map_fst _ _ h]⟩

/-! ## Claim theorems -/

/-- C1, counterexample: on `['AO1','XYZ','AA1']` — a sequence with two
vowels and one symbol absent from the sonority map — `tokenize` drops
the unknown symbol, so the concatenation of its syllables is not the
input.  This refutes the claim that coverage holds for all inputs
including symbols absent from the map. -/
theorem C1_counterexample :
    tokenize SSP ["AO1", "XYZ", "AA1"] = some [["AO1"], ["AA1"]] ∧
    ¬ ∃ sylls, tokenize SSP ["AO1", "XYZ", "AA1"] = some sylls ∧
        sylls.flatten = ["AO1", "XYZ", "AA1"] := by
  have he : tokenize SSP ["AO1", "XYZ", "AA1"] = some [["AO1"], ["AA1"]] := by decide
  refine ⟨he, ?_⟩
  rintro ⟨sylls, hs, hf⟩
  rw [he] at hs
  have hss : sylls = [["AO1"], ["AA1"]] := by
    simpa using hs.symm
  subst hss
  exact absurd hf (by decide)

/-- C1, amended: for every phoneme sequence all of whose symbols are
present in the sonority map, concatenating the syllables returned by
`tokenize`, in order, yields exactly the input sequence. -/
theorem C1_coverage_known (token : List String)
    (h : ∀ c ∈ token, (lookupLast SSP.phoneme_map c).isSome = true) :
    ∃ sylls, tokenize SSP token = some sylls ∧ sylls.flatten = token :=
  tokenize_flatten_known token h

/-- C1, witness for the amended theorem at a concrete input. -/
theorem C1_coverage_known_witness :
    ∃ sylls, tokenize SSP ["AO1", "K", "AA1"] = some sylls ∧
      sylls.flatten = ["AO1", "K", "AA1"] :=
  C1_coverage_known ["AO1", "K", "AA1"] (by decide)

/-- C2: with at most one vowel occurrence `tokenize` returns the whole
input as a single syllable; with two or more, it succeeds and every
returned syllable contains exactly one vowel phoneme. -/
theorem C2_vowel_invariant (token : List String) :
    (vowelCount SSP token ≤ 1 → tokenize SSP token = some [token]) ∧
    (2 ≤ vowelCount SSP token →
      ∃ sylls, tokenize SSP token = some sylls ∧
        ∀ s ∈ sylls, vcount en_vowels s = 1) := by
  constructor
  · intro h
    simp [tokenize, h]
  · intro h
    rcases tokenize_core token h with ⟨sylls, ht, _, hone⟩
    exact ⟨sylls, ht, hone⟩

/-- C2, witness: both branches applied at concrete inputs. -/
theorem C2_vowel_invariant_witness :
    tokenize SSP ["N"] = some [["N"]] ∧
    ∃ sylls, tokenize SSP ["AO1", "K", "AA1"] = some sylls ∧
      ∀ s ∈ sylls, vcount en_vowels s = 1 :=
  ⟨(C2_vowel_invariant ["N"]).1 (by decide),
   (C2_vowel_invariant ["AO1", "K", "AA1"]).2 (by decide)⟩

/-- C3: every syllable leaving the merge pass contains a vowel, so the
assertion of the single-vowel repair pass never fails: `tokenize` never
returns the failure value, for any input. -/
theorem C3_assertion_safe (token : List String) :
    (validate_syllables en_vowels (sspScan (assign_values SSP token))).all
        (hasVowel en_vowels) = true ∧
    (tokenize SSP token).isSome = true := by
  constructor
  · rw [List.all_eq_true]
    intro s hs
    have h1 := vsLoop_vc_lower (sspScan (assign_values SSP token)) en_vowels [] []
      (by simp) s hs
    exact (hasVowel_iff _ _).mpr h1
  · by_cases h : vowelCount SSP token ≤ 1
    · simp [tokenize, h]
    · rcases tokenize_core token (by omega) with ⟨sylls, ht, _, _⟩
      rw [ht]
      rfl

/-- C4: the documented `extraordinary` example under the default English
hierarchy. -/
theorem C4_example :
    tokenize SSP
        ["EH2", "K", "S", "T", "R", "AH0", "AO1", "R", "D", "AH0", "N", "EH2", "R", "IY0"]
      = some [["EH2", "K", "S"], ["T", "R", "AH0"], ["AO1", "R"], ["D", "AH0"],
              ["N", "EH2"], ["R", "IY0"]] := by
  decide

/-- C5, counterexample: a two-phoneme sequence of two vowels *is*
split, refuting the claim that sequences of length 2 are never split. -/
theorem C5_counterexample :
    tokenize SSP ["AO1", "AA1"] = some [["AO1"], ["AA1"]] ∧
    tokenize SSP ["AO1", "AA1"] ≠ some [["AO1", "AA1"]] := by
  constructor
  · decide
  · decide

/-- C5, amended: singleton sequences are never split, and two-phoneme
sequences are never split provided they contain at most one vowel
occurrence (a two-vowel pair is split in two). -/
theorem C5_short_input :
    (∀ x : String, tokenize SSP [x] = some [[x]]) ∧
    (∀ token : List String, token.length = 2 → vowelCount SSP token ≤ 1 →
      tokenize SSP token = some [token]) := by
  constructor
  · intro x
    have h1 : vowelCount SSP [x] ≤ 1 := by
      rw [vowelCount_SSP]
      have h := List.countP_le_length (p := isVowel en_vowels) (l := [x])
      simpa using h
    simp [tokenize, h1]
  · intro token _ h
    simp [tokenize, h]

/-- C5, witness for the amended theorem. -/
theorem C5_short_input_witness :
    tokenize SSP ["K"] = some [["K"]] ∧ tokenize SSP ["K", "S"] = some [["K", "S"]] :=
  ⟨C5_short_input.1 "K", C5_short_input.2 ["K", "S"] (by decide) (by decide)⟩

/-- C6, counterexample: a hierarchy whose vowel level is empty is
accepted silently, and so is an empty hierarchy when `lang = "en"` (the
falsy argument is replaced by the default English hierarchy); neither
raises the claimed configuration error. -/
theorem C6_counterexample :
    (mkTokenizer "en" [[], ["K"]]).isSome = true ∧
    (mkTokenizer "en" []).isSome = true := by
  constructor
  · decide
  · decide

/-- C6, amended: construction fails exactly when the supplied hierarchy
is empty (falsy) and the language is not `"en"`; an empty vowel level is
accepted without error. -/
theorem C6_construction (lang : String) (sh : List (List String)) :
    mkTokenizer lang sh = none ↔ sh = [] ∧ lang ≠ "en" := by
  unfold mkTokenizer
  by_cases h1 : sh = []
  · by_cases h2 : lang = "en"
    · subst h1
      simp [h2, en_hierarchy]
    · subst h1
      simp [h2]
  · cases sh with
    | nil => exact absurd rfl h1
    | cons a rest => simp [h1]

/-- C7, counterexample: `"ab"` differs from the registered symbol
`"Ab"` only in letter case (identical upper-casings), yet its rank
lookup fails — lookups are not case-insensitive in general, only the
original and fully upper-cased spellings are registered. -/
theorem C7_counterexample :
    pyToUpper "ab" = pyToUpper "Ab" ∧
    lookupLast (buildMap [["Ab"]]) "ab" = none ∧
    (lookupLast (buildMap [["Ab"]]) "Ab").isSome = true := by
  refine ⟨by decide, by decide, by decide⟩

theorem mem_buildMapAux (L : Nat) :
    ∀ (hs : List (List String)) (i : Nat) (level : List String) (c : String),
      level ∈ hs → c ∈ level →
      ∃ j, (c, L - j) ∈ buildMapAux L i hs ∧ (pyToUpper c, L - j) ∈ buildMapAux L i hs := by
  intro hs
  induction hs with
  | nil => intro i level c h _; simp at h
  | cons lv rest ih =>
      intro i level c hlv hc
      rcases List.mem_cons.mp hlv with rfl | hlv
      · refine ⟨i, ?_, ?_⟩
        · simp only [buildMapAux]
          refine List.mem_append_left _ ?_
          exact List.mem_flatMap.mpr ⟨c, hc, by simp⟩
        · simp only [buildMapAux]
          refine List.mem_append_left _ ?_
          exact List.mem_flatMap.mpr ⟨c, hc, by simp⟩
      · rcases ih (i + 1) level c hlv hc with ⟨j, h1, h2⟩
        exact ⟨j, by simp only [buildMapAux]; exact List.mem_append_right _ h1,
               by simp only [buildMapAux]; exact List.mem_append_right _ h2⟩

/-- C7, amended: for every symbol placed in any level of a hierarchy,
the rank lookup succeeds both for the symbol's original spelling and for
its upper-cased spelling (other casings of the symbol may still fail). -/
theorem C7_case_lookup (h : List (List String)) (level : List String) (c : String)
    (hlevel : level ∈ h) (hc : c ∈ level) :
    (lookupLast (buildMap h) c).isSome = true ∧
    (lookupLast (buildMap h) (pyToUpper c)).isSome = true := by
  rcases mem_buildMapAux h.length h 0 level c hlevel hc with ⟨j, h1, h2⟩
  exact ⟨lookupLast_isSome_of_mem h1, lookupLast_isSome_of_mem h2⟩

/-- C7, witness for the amended theorem. -/
theorem C7_case_lookup_witness :
    (lookupLast (buildMap [["Ab"]]) "Ab").isSome = true ∧
    (lookupLast (buildMap [["Ab"]]) (pyToUpper "Ab")).isSome = true :=
  C7_case_lookup [["Ab"]] ["Ab"] "Ab" (by simp) (by simp)

/-- C9, counterexample: with matching totals (`[3]` vs three phones) but
an unknown middle symbol, the emitted per-syllable counts sum to 2, not
`len(phones) = 3`. -/
theorem C9_counterexample :
    List.sum [3] = (["AO1", "XYZ", "AA1"] : List String).length ∧
    syllable SSP ["AO1", "XYZ", "AA1"] [3] = some (["AO1", "AA1"], [1, 1]) ∧
    ¬ ∃ S C, syllable SSP ["AO1", "XYZ", "AA1"] [3] = some (S, C) ∧
        C.sum = (["AO1", "XYZ", "AA1"] : List String).length := by
  have he : syllable SSP ["AO1", "XYZ", "AA1"] [3] = some (["AO1", "AA1"], [1, 1]) := by
    decide
  refine ⟨by decide, he, ?_⟩
  rintro ⟨S, C, hSC, hsum⟩
  rw [he] at hSC
  have hC : C = [1, 1] := by
    have h2 := hSC.symm
    simp only [Option.some.injEq, Prod.mk.injEq] at h2
    exact h2.2
  subst hC
  simp at hsum

/-- C9, amended: whenever the per-word phone counts sum to the number of
phones and every phone is present in the sonority map, `syllable`
succeeds, emits one count per emitted syllable token, and the counts sum
to the total number of phones. -/
theorem C9_word_alignment (phones : List String) (phone_nums : List Nat)
    (hsum : phone_nums.sum = phones.length)
    (hknown : ∀ c ∈ phones, (lookupLast SSP.phoneme_map c).isSome = true) :
    ∃ S C, syllable SSP phones phone_nums = some (S, C) ∧
      C.sum = phones.length ∧ S.length = C.length := by
  induction phone_nums generalizing phones with
  | nil => exact ⟨[], [], rfl, hsum, rfl⟩
  | cons n rest ih =>
      have hsum1 : n + rest.sum = phones.length := by
        simpa [List.sum_cons] using hsum
      have hlen : n ≤ phones.length := by omega
      have htake : (phones.take n).length = n := by
        rw [List.length_take]
        omega
      have hdrop : (phones.drop n).length = phones.length - n := List.length_drop _ _
      have hsum' : rest.sum = (phones.drop n).length := by
        rw [hdrop]; omega
      have hknown' : ∀ c ∈ phones.drop n, (lookupLast SSP.phoneme_map c).isSome = true :=
        fun c hc => hknown c (List.drop_subset _ _ hc)
      rcases ih (phones.drop n) hsum' hknown' with ⟨S', C', hS', hsum'', hlen''⟩
      by_cases hn : n ≤ 2
      · refine ⟨joinSpace (phones.take n) :: S', n :: C', ?_, ?_, ?_⟩
        · simp [syllable, hn, hS']
        · simp only [List.sum_cons]
          omega
        · simp [hlen'']
      · have hknownT : ∀ c ∈ phones.take n, (lookupLast SSP.phoneme_map c).isSome = true :=
          fun c hc => hknown c (List.take_subset _ _ hc)
        rcases tokenize_flatten_known (phones.take n) hknownT with ⟨sylls, htok, hfl⟩
        have hcnt : (sylls.map List.length).sum = n := by
          have := congrArg List.length hfl
          rw [List.length_flatten] at this
          rw [this, htake]
        refine ⟨sylls.map joinSpace ++ S', sylls.map List.length ++ C', ?_, ?_, ?_⟩
        · simp [syllable, hn, htok, hS']
        · rw [List.sum_append, hcnt]
          omega
        · simp [hlen'']

/-- C9, witness for the amended theorem at a concrete sentence of one
five-phone word. -/
theorem C9_word_alignment_witness :
    ∃ S C, syllable SSP ["AO1", "K", "S", "T", "AA1"] [5] = some (S, C) ∧
      C.sum = (["AO1", "K", "S", "T", "AA1"] : List String).length ∧
      S.length = C.length :=
  C9_word_alignment ["AO1", "K", "S", "T", "AA1"] [5] (by decide) (by decide)

/-- C10: the empty phoneme sequence yields one empty syllable, not an
empty list and not a failure. -/
theorem C10_empty_input : tokenize SSP ([] : List String) = some [[]] := by
  decide

/-! ## Script-segmentation lemmas -/

theorem groupRuns_eq_nil (p : Char → Bool) :
    ∀ l : List Char, groupRuns p l = [] → l = [] := by
  intro l h
  cases l with
  | nil => rfl
  | cons c rest =>
      exfalso
      simp only [groupRuns] at h
      cases hg : groupRuns p rest with
      | nil => rw [hg] at h; simp at h
      | cons hd tl =>
          obtain ⟨d, ds⟩ := hd
          simp only [hg] at h
          split at h <;> simp at h

/-- The maximal same-class runs concatenate back to the original
character list. -/
theorem groupRuns_flatten (p : Char → Bool) :
    ∀ l : List Char, ((groupRuns p l).map fun r => r.1 :: r.2).flatten = l := by
  intro l
  induction l with
  | nil => rfl
  | cons c rest ih =>
      simp only [groupRuns]
      cases hg : groupRuns p rest with
      | nil =>
          have := groupRuns_eq_nil p rest hg
          subst this
          simp
      | cons hd tl =>
          obtain ⟨d, ds⟩ := hd
          rw [hg] at ih
          simp only [hg]
          split_ifs with hpc
          · simp only [List.map_cons, List.flatten_cons] at ih ⊢
            rw [← ih]
            simp
          · simp only [List.map_cons, List.flatten_cons] at ih ⊢
            rw [← ih]
            simp

theorem filter_dropWhile_nonws (l : List Char) :
    (l.dropWhile Char.isWhitespace).filter (fun c => !c.isWhitespace)
      = l.filter (fun c => !c.isWhitespace) := by
  induction l with
  | nil => rfl
  | cons c rest ih =>
      cases hw : c.isWhitespace
      · simp [List.dropWhile_cons, List.filter_cons, hw]
      · simp [List.dropWhile_cons, List.filter_cons, hw, ih]

/-- Stripping only removes whitespace characters. -/
theorem filter_stripChars (l : List Char) :
    (stripChars l).filter (fun c => !c.isWhitespace)
      = l.filter (fun c => !c.isWhitespace) := by
  unfold stripChars
  rw [List.filter_reverse, filter_dropWhile_nonws, List.filter_reverse,
      List.reverse_reverse, filter_dropWhile_nonws]

/-- Dropping empty segments does not change the concatenation. -/
theorem flatten_filter_nonempty (L : List (List Char)) :
    (L.filter fun s => !s.isEmpty).flatten = L.flatten := by
  induction L with
  | nil => rfl
  | cons a rs ih =>
      cases ha : a.isEmpty
      · simp [List.filter_cons, ha, ih]
      · have ha' : a = [] := by
          cases a with
          | nil => rfl
          | cons x xs => simp [List.isEmpty] at ha
        subst ha'
        simp [List.filter_cons, ih]

theorem filter_flatten (p : Char → Bool) (L : List (List Char)) :
    L.flatten.filter p = (L.map fun s => s.filter p).flatten := by
  induction L with
  | nil => rfl
  | cons a rs ih => simp [List.filter_append, ih]

/-- C8: `split_zh_en` returns only non-empty segments; concatenating the
returned segments preserves every non-whitespace character of the input
in order; and the documented mixed-script example holds.  (The CJK
character class itself is modelled from the spec, as `tools/text/unicode.py`
is not among the sources.) -/
theorem C8_script_segmentation :
    (∀ text : String,
      (split_zh_en text).all (fun s => !(s == "")) = true ∧
      ((split_zh_en text).map String.toList).flatten.filter (fun c => !c.isWhitespace)
        = text.toList.filter (fun c => !c.isWhitespace)) ∧
    split_zh_en "你好Hello世界World" = ["你好", "Hello", "世界", "World"] := by
  constructor
  · intro text
    constructor
    · rw [List.all_eq_true]
      intro s hs
      unfold split_zh_en at hs
      rcases List.mem_map.mp hs with ⟨u, hu, rfl⟩
      rcases List.mem_filter.mp hu with ⟨_, hne⟩
      cases u with
      | nil => simp [List.isEmpty] at hne
      | cons c cs =>
          have hne2 : String.mk (c :: cs) ≠ "" := by
            intro h
            have := congrArg String.data h
            simp at this
          simp [hne2]
    · unfold split_zh_en
      rw [List.map_map]
      have hcomp : (String.toList ∘ String.mk) = (id : List Char → List Char) := rfl
      rw [hcomp, List.map_id, flatten_filter_nonempty, filter_flatten, List.map_map]
      have hpt : ((fun s => s.filter fun c => !c.isWhitespace) ∘
            fun r : Char × List Char => stripChars (r.1 :: r.2))
          = fun r : Char × List Char => (r.1 :: r.2).filter fun c => !c.isWhitespace := by
        funext r
        exact filter_stripChars _
      rw [hpt]
      have hsplit : (fun r : Char × List Char => (r.1 :: r.2).filter fun c => !c.isWhitespace)
          = ((fun s : List Char => s.filter fun c => !c.isWhitespace) ∘
              fun r : Char × List Char => r.1 :: r.2) := rfl
      rw [hsplit, ← List.map_map, ← filter_flatten, groupRuns_flatten]
  · decide

end VoxBox
